import Mathlib

/-!
Shallow embedding of `src/server.js` of the sarah-reward-tracker repository.

The server is an Express application over five Postgres tables
(`piano_sessions`, `weekly_awards`, `tests`, `incidents`, `transactions`).
We model the database as a record of five lists together with the `SERIAL`
counters of the tables, and each route handler as a pure function from the
request payload and the database state to a response and a new state.

Dates: the server stores `DATE` values and manipulates them through the JS
`Date` object (`getWeekStart`).  We model a calendar date as the integer
number of days since 1970-01-01 (which was a Thursday), so the JS
`getDay()` of a date `n` is `(n + 4) % 7` (with mathematical `emod`,
matching the calendar for dates before 1970 as well).

Numbers: JS numbers in the test route are modelled by `JNum`, rationals
extended with the IEEE special values `Infinity`, `-Infinity`, `NaN`, so
that the division by a zero `maxScore` behaves as in JS (no exception).
-/

/-- A row of `piano_sessions`: `{id, date, minutes}`. -/
structure PianoSession where
  id : Nat
  date : Int
  minutes : Int
deriving DecidableEq, Repr

/-- A row of `weekly_awards`: `{id, week_start}` (`week_start` is `UNIQUE`). -/
structure WeeklyAward where
  id : Nat
  weekStart : Int
deriving DecidableEq, Repr

/-- A row of `tests`: `{id, date, subject, score, max_score, awarded}`. -/
structure TestRecord where
  id : Nat
  date : Int
  subject : String
  score : Int
  maxScore : Int
  awarded : Bool
deriving DecidableEq, Repr

/-- A row of `incidents`: `{id, date, note}`. -/
structure Incident where
  id : Nat
  date : Int
  note : String
deriving DecidableEq, Repr

/-- A row of `transactions`: `{id, date, type, amount, description}`. -/
structure Transaction where
  id : Nat
  date : Int
  txType : String
  amount : Int
  description : String
deriving DecidableEq, Repr

/-- The database: the five tables in insertion order, plus the `SERIAL`
counter of each table (`DELETE` does not reset a Postgres sequence). -/
structure DB where
  pianoSessions : List PianoSession
  weeklyAwards : List WeeklyAward
  tests : List TestRecord
  incidents : List Incident
  transactions : List Transaction
  pianoNextId : Nat
  awardNextId : Nat
  testNextId : Nat
  incidentNextId : Nat
  txNextId : Nat
deriving DecidableEq, Repr

/-- The freshly initialised database: all five tables empty. -/
def DB.empty : DB :=
  { pianoSessions := [], weeklyAwards := [], tests := [], incidents := [],
    transactions := [], pianoNextId := 0, awardNextId := 0, testNextId := 0,
    incidentNextId := 0, txNextId := 0 }

/-- Function `getWeekStart` from `server.js`:
`day = d.getDay(); diff = d.getDate() - day + (day === 0 ? -6 : 1)`.
In day counts since the epoch (a Thursday), `getDay` is `(n + 4) % 7` and
the whole function subtracts `6` when the day is Sunday and `day - 1`
otherwise. -/
def getWeekStart (n : Int) : Int :=
  let day := (n + 4) % 7
  n - (if day = 0 then 6 else day - 1)

/-- A date is a Monday when its JS `getDay()` is `1`. -/
def isMonday (n : Int) : Prop := (n + 4) % 7 = 1

instance (n : Int) : Decidable (isMonday n) := by unfold isMonday; infer_instance

/-- JS numbers as used by the test route: a rational, or an IEEE special
value.  Rounding of finite doubles is idealised (finite values are exact
rationals); the special values follow IEEE as JS does. -/
inductive JNum where
  | num (q : ℚ)
  | inf
  | negInf
  | nan
deriving DecidableEq, Repr

/-- JS division `a / b` on `JNum` (only finite inputs occur in the code;
`x / 0` is `Infinity`, `-Infinity` or `NaN` by the sign of `x`). -/
def JNum.div : JNum → JNum → JNum
  | .num a, .num b =>
      if b = 0 then (if 0 < a then .inf else if a < 0 then .negInf else .nan)
      else .num (a / b)
  | _, _ => .nan

/-- JS multiplication by the literal `100`. -/
def JNum.mul100 : JNum → JNum
  | .num a => .num (a * 100)
  | .inf => .inf
  | .negInf => .negInf
  | .nan => .nan

/-- JS comparison `x >= 95` (`NaN >= 95` is `false`). -/
def JNum.ge95 : JNum → Bool
  | .num a => decide (95 ≤ a)
  | .inf => true
  | .negInf => false
  | .nan => false

/-- JS `toFixed(0)`: round to the nearest integer, ties toward the larger
integer (the ECMAScript rule "pick the larger n"); the special values
print as JS prints them. -/
def JNum.toFixed0 : JNum → String
  | .num a => toString ⌊a + 1/2⌋
  | .inf => "Infinity"
  | .negInf => "-Infinity"
  | .nan => "NaN"

/-- Response of `POST /api/piano`. -/
structure PianoRes where
  success : Bool
  awarded : Bool
  weekMinutes : Int
deriving DecidableEq, Repr

/-- Query `SELECT COALESCE(SUM(minutes), 0) FROM piano_sessions
WHERE date >= ws AND date <= ws + 6`. -/
def weekMinutesOf (st : DB) (ws : Int) : Int :=
  ((st.pianoSessions.filter (fun s => ws ≤ s.date && s.date ≤ ws + 6)).map
    (fun s => s.minutes)).sum

/-- Description of the weekly piano award transaction. -/
def pianoDesc (weekMinutes : Int) : String :=
  "Weekly piano goal met! (" ++ toString weekMinutes ++ " min)"

/-- Route `POST /api/piano`: insert the session; compute the week window; sum the
week's minutes; if the sum reaches 150 and no `weekly_awards` row exists
for the week start, insert the award and the `+50` transaction. -/
def logPiano (date minutes : Int) (st : DB) : PianoRes × DB :=
  let st1 : DB := { st with
    pianoSessions := st.pianoSessions ++ [⟨st.pianoNextId, date, minutes⟩],
    pianoNextId := st.pianoNextId + 1 }
  let ws := getWeekStart date
  let weekMinutes := weekMinutesOf st1 ws
  let alreadyAwarded := st1.weeklyAwards.any (fun a => a.weekStart == ws)
  if 150 ≤ weekMinutes ∧ alreadyAwarded = false then
    (⟨true, true, weekMinutes⟩,
     { st1 with
       weeklyAwards := st1.weeklyAwards ++ [⟨st1.awardNextId, ws⟩],
       awardNextId := st1.awardNextId + 1,
       transactions := st1.transactions ++
         [⟨st1.txNextId, date, "piano", 50, pianoDesc weekMinutes⟩],
       txNextId := st1.txNextId + 1 })
  else
    (⟨true, false, weekMinutes⟩, st1)

/-- Response of `POST /api/test`. -/
structure TestRes where
  success : Bool
  awarded : Bool
  percentage : JNum
deriving DecidableEq, Repr

/-- Description of the test award transaction:
`` `${subject} test: ${score}/${maxScore} (${percentage.toFixed(0)}%)` ``. -/
def testDesc (subject : String) (score maxScore : Int) (percentage : JNum) : String :=
  subject ++ " test: " ++ toString score ++ "/" ++ toString maxScore ++
    " (" ++ percentage.toFixed0 ++ "%)"

/-- Route `POST /api/test`: `percentage = (score / maxScore) * 100`,
`awarded = percentage >= 95`; always insert the `tests` row; insert the
`+100` transaction only when awarded. -/
def logTest (date : Int) (subject : String) (score maxScore : Int) (st : DB) :
    TestRes × DB :=
  let percentage := (JNum.div (.num score) (.num maxScore)).mul100
  let awarded := percentage.ge95
  let st1 : DB := { st with
    tests := st.tests ++ [⟨st.testNextId, date, subject, score, maxScore, awarded⟩],
    testNextId := st.testNextId + 1 }
  if awarded then
    (⟨true, true, percentage⟩,
     { st1 with
       transactions := st1.transactions ++
         [⟨st1.txNextId, date, "test", 100, testDesc subject score maxScore percentage⟩],
       txNextId := st1.txNextId + 1 })
  else
    (⟨true, false, percentage⟩, st1)

/-- Description of the incident transaction: `note` is truthy exactly when
it is present and non-empty (the empty string is falsy in JS). -/
def incidentDesc (note : Option String) : String :=
  match note with
  | some s => if s = "" then "Crying incident" else "Incident: " ++ s
  | none => "Crying incident"

/-- Route `POST /api/incident`: insert the incident, storing an empty
string when the note is falsy, then always
insert the `-50` transaction. -/
def logIncident (date : Int) (note : Option String) (st : DB) : Bool × DB :=
  let st1 : DB := { st with
    incidents := st.incidents ++ [⟨st.incidentNextId, date, note.getD ""⟩],
    incidentNextId := st.incidentNextId + 1 }
  (true,
   { st1 with
     transactions := st1.transactions ++
       [⟨st1.txNextId, date, "incident", -50, incidentDesc note⟩],
     txNextId := st1.txNextId + 1 })

/-- Route `DELETE /api/transaction/:id`: look the row up (`rows[0]`); `none`
models the 404.  If the row is a positive piano transaction, delete the
`weekly_awards` row of its week start; then delete the transaction. -/
def deleteTransaction (id : Nat) (st : DB) : Option DB :=
  match st.transactions.find? (fun t => t.id == id) with
  | none => none
  | some t =>
      some { st with
        weeklyAwards :=
          if t.txType = "piano" ∧ 0 < t.amount then
            st.weeklyAwards.filter (fun a => !(a.weekStart == getWeekStart t.date))
          else st.weeklyAwards,
        transactions := st.transactions.filter (fun x => !(x.id == id)) }

/-- Route `POST /api/reset`: `DELETE FROM` each of the five tables (the serial
sequences are not reset). -/
def resetDB (st : DB) : DB :=
  { st with
    pianoSessions := [],
    weeklyAwards := [],
    tests := [],
    incidents := [],
    transactions := [] }

/-- Insertion step of the sort used to model SQL `ORDER BY`. -/
def insertBy {α : Type} (le : α → α → Bool) (x : α) : List α → List α
  | [] => [x]
  | y :: ys => if le x y then x :: y :: ys else y :: insertBy le x ys

/-- Insertion sort modelling SQL `ORDER BY` (any sort satisfying the
ordering is a faithful model of the query). -/
def sortBy {α : Type} (le : α → α → Bool) : List α → List α
  | [] => []
  | x :: xs => insertBy le x (sortBy le xs)

/-- Comparison for `ORDER BY date DESC` on rows with a date projection. -/
def dateDesc {α : Type} (date : α → Int) : α → α → Bool :=
  fun a b => date b ≤ date a

/-- Comparison for `ORDER BY date DESC, id DESC` on transactions. -/
def txDesc (a b : Transaction) : Bool :=
  b.date < a.date || (a.date == b.date && b.id ≤ a.id)

/-- Response of `GET /api/data`. -/
structure DataRes where
  balance : Int
  pianoSessions : List PianoSession
  weeklyAwards : List WeeklyAward
  tests : List TestRecord
  incidents : List Incident
  transactions : List Transaction
deriving DecidableEq, Repr

/-- Route `GET /api/data`: the five `SELECT`s (note: the `weekly_awards` query
has no `ORDER BY`) and the balance `SELECT COALESCE(SUM(amount), 0)`. -/
def getData (st : DB) : DataRes :=
  { balance := (st.transactions.map (fun t => t.amount)).sum,
    pianoSessions := sortBy (dateDesc (fun s => s.date)) st.pianoSessions,
    weeklyAwards := st.weeklyAwards,
    tests := sortBy (dateDesc (fun t => t.date)) st.tests,
    incidents := sortBy (dateDesc (fun i => i.date)) st.incidents,
    transactions := sortBy txDesc st.transactions }

/-- A mutating request against the server. -/
inductive Op where
  | piano (date minutes : Int)
  | test (date : Int) (subject : String) (score maxScore : Int)
  | incident (date : Int) (note : Option String)
  | deleteTx (id : Nat)
  | reset
deriving DecidableEq, Repr

/-- Execute one request against the database (the 404 of a delete leaves
the state unchanged). -/
def execOp (op : Op) (st : DB) : DB :=
  match op with
  | .piano d m => (logPiano d m st).2
  | .test d subj s ms => (logTest d subj s ms st).2
  | .incident d note => (logIncident d note st).2
  | .deleteTx id => (deleteTransaction id st).getD st
  | .reset => resetDB st

/-- Execute a sequence of requests from the empty database. -/
def run (ops : List Op) : DB := ops.foldl (fun st op => execOp op st) DB.empty

/-- There is a `weekly_awards` row for the week starting at `ws`. -/
def hasAward (st : DB) (ws : Int) : Prop :=
  ∃ a ∈ st.weeklyAwards, a.weekStart = ws

instance (st : DB) (ws : Int) : Decidable (hasAward st ws) := by
  unfold hasAward; infer_instance

/-- The transaction is a positive piano transaction (the condition of the
deletion-reversal path). -/
def posPianoTx (t : Transaction) : Bool :=
  t.txType == "piano" && decide (0 < t.amount)

/-- The date `d` lies in the week `[ws, ws + 6]`. -/
def inWeek (ws d : Int) : Bool :=
  decide (ws ≤ d) && decide (d ≤ ws + 6)

/-- Number of positive piano transactions dated within the week `[ws, ws+6]`. -/
def pianoCount (st : DB) (ws : Int) : Nat :=
  st.transactions.countP (fun t => posPianoTx t && inWeek ws t.date)

/-- The inductive invariant of the reachable states: fresh serial ids,
distinct transaction ids, awards keyed by Mondays, the `week_start`
uniqueness constraint, and the award/transaction coupling. -/
structure DBInv (st : DB) : Prop where
  txIdLt : ∀ t ∈ st.transactions, t.id < st.txNextId
  txIdNodup : (st.transactions.map Transaction.id).Nodup
  awMonday : ∀ a ∈ st.weeklyAwards, isMonday a.weekStart
  awNodup : (st.weeklyAwards.map WeeklyAward.weekStart).Nodup
  awardIffOne : ∀ ws : Int, isMonday ws → (hasAward st ws ↔ pianoCount st ws = 1)
  countLe : ∀ ws : Int, isMonday ws → pianoCount st ws ≤ 1

/-! ### Arithmetic of `getWeekStart` -/

theorem getWeekStart_eq (n : Int) :
    getWeekStart n = n - (if (n + 4) % 7 = 0 then 6 else (n + 4) % 7 - 1) := rfl

theorem isMonday_getWeekStart (n : Int) : isMonday (getWeekStart n) := by
  unfold isMonday
  rw [getWeekStart_eq]
  split <;> omega

theorem getWeekStart_le (n : Int) : getWeekStart n ≤ n := by
  rw [getWeekStart_eq]
  split <;> omega

theorem le_getWeekStart_add (n : Int) : n ≤ getWeekStart n + 6 := by
  rw [getWeekStart_eq]
  split <;> omega

theorem getWeekStart_idem (n : Int) :
    getWeekStart (getWeekStart n) = getWeekStart n := by
  simp only [getWeekStart_eq]
  split <;> split <;> omega

theorem getWeekStart_greatest (n w : Int) (hw : isMonday w) (hle : w ≤ n) :
    w ≤ getWeekStart n := by
  unfold isMonday at hw
  rw [getWeekStart_eq]
  split <;> omega

theorem monday_week_mem (d w : Int) (hw : isMonday w) :
    (w ≤ d ∧ d ≤ w + 6) ↔ w = getWeekStart d := by
  unfold isMonday at hw
  rw [getWeekStart_eq]
  split <;> omega

/-! ### Week-start keys are Mondays -/

theorem awMonday_exec (op : Op) (st : DB)
    (h : ∀ a ∈ st.weeklyAwards, isMonday a.weekStart) :
    ∀ a ∈ (execOp op st).weeklyAwards, isMonday a.weekStart := by
  cases op with
  | piano d m =>
      simp only [execOp, logPiano]
      split
      · intro a ha
        simp only [List.mem_append, List.mem_singleton] at ha
        rcases ha with ha | rfl
        · exact h a ha
        · exact isMonday_getWeekStart d
      · exact h
  | test d subj s ms =>
      simp only [execOp, logTest]
      split <;> exact h
  | incident d note =>
      simp only [execOp, logIncident]
      exact h
  | deleteTx id =>
      simp only [execOp, deleteTransaction]
      cases hf : st.transactions.find? (fun t => t.id == id) with
      | none => simpa using h
      | some t =>
          simp only [Option.getD_some]
          split
          · intro a ha
            exact h a (List.mem_of_mem_filter ha)
          · exact h
  | reset =>
      simp only [execOp, resetDB]
      intro a ha
      simp at ha

/-! ### Claim C10 -/

/-- C10: `getWeekStart` is idempotent and always returns a Monday, and
consequently every `week_start` key in the awards table stays a Monday
under every operation. -/
theorem getWeekStart_idem_and_monday :
    (∀ d : Int, getWeekStart (getWeekStart d) = getWeekStart d) ∧
    (∀ d : Int, isMonday (getWeekStart d)) ∧
    (∀ op st, (∀ a ∈ st.weeklyAwards, isMonday a.weekStart) →
      ∀ a ∈ (execOp op st).weeklyAwards, isMonday a.weekStart) :=
  ⟨getWeekStart_idem, isMonday_getWeekStart, awMonday_exec⟩

/-- Witness for C10 at a concrete date (day 10, a Sunday, whose week
starts on day 4) and a concrete operation. -/
theorem getWeekStart_idem_and_monday_witness :
    getWeekStart (getWeekStart 10) = getWeekStart 10 ∧ isMonday (getWeekStart 10) ∧
    ∀ a ∈ (execOp (.piano 10 200) DB.empty).weeklyAwards, isMonday a.weekStart := by
  refine ⟨getWeekStart_idem_and_monday.1 10, getWeekStart_idem_and_monday.2.1 10,
    getWeekStart_idem_and_monday.2.2 (.piano 10 200) DB.empty ?_⟩
  intro a ha
  simp [DB.empty] at ha

/-! ### Claim C1 -/

theorem hasAward_iff_any (st : DB) (ws : Int) :
    hasAward st ws ↔ st.weeklyAwards.any (fun a => a.weekStart == ws) = true := by
  simp [hasAward, List.any_eq_true]

/-- C1: logging a piano session always inserts the session row;
`week_start` is the Monday on or before the date; the reported
`weekMinutes` is the sum of minutes over the week's sessions including the
new one; the award and the `+50` transaction are inserted (and
`awarded = true` reported) exactly when that sum reaches 150 and no award
existed for the week; otherwise awards and transactions are unchanged. -/
theorem piano_route_correct (d m : Int) (st : DB) :
    ((logPiano d m st).2.pianoSessions = st.pianoSessions ++ [⟨st.pianoNextId, d, m⟩]) ∧
    (isMonday (getWeekStart d) ∧ getWeekStart d ≤ d ∧
      ∀ w, isMonday w → w ≤ d → w ≤ getWeekStart d) ∧
    ((logPiano d m st).1.weekMinutes =
      (((logPiano d m st).2.pianoSessions.filter
          (fun s => getWeekStart d ≤ s.date && s.date ≤ getWeekStart d + 6)).map
        (fun s => s.minutes)).sum) ∧
    ((logPiano d m st).1.awarded = true ↔
      150 ≤ (logPiano d m st).1.weekMinutes ∧ ¬ hasAward st (getWeekStart d)) ∧
    ((logPiano d m st).1.awarded = true →
      (logPiano d m st).2.weeklyAwards =
        st.weeklyAwards ++ [⟨st.awardNextId, getWeekStart d⟩] ∧
      (logPiano d m st).2.transactions = st.transactions ++
        [⟨st.txNextId, d, "piano", 50, pianoDesc (logPiano d m st).1.weekMinutes⟩]) ∧
    ((logPiano d m st).1.awarded = false →
      (logPiano d m st).2.weeklyAwards = st.weeklyAwards ∧
      (logPiano d m st).2.transactions = st.transactions) := by
  refine ⟨?_, ⟨isMonday_getWeekStart d, getWeekStart_le d,
    fun w hw hle => getWeekStart_greatest d w hw hle⟩, ?_, ?_, ?_, ?_⟩ <;>
    simp only [logPiano] <;> split
  · rfl
  · rfl
  · rfl
  · rfl
  case isTrue h =>
    simp only [hasAward_iff_any]
    exact iff_of_true trivial ⟨by simpa [weekMinutesOf] using h.1, by simp [h.2]⟩
  case isFalse h =>
    simp only [hasAward_iff_any]
    refine iff_of_false (by simp) ?_
    rintro ⟨h1, h2⟩
    refine h ⟨by simpa [weekMinutesOf] using h1, ?_⟩
    cases hb : (st.weeklyAwards.any fun a => a.weekStart == getWeekStart d)
    · rfl
    · exact absurd hb h2
  · intro _
    constructor <;> rfl
  · intro hfalse
    simp at hfalse
  · intro hfalse
    simp at hfalse
  · intro _
    constructor <;> rfl

/-! ### Claim C6 -/

theorem incidentDesc_eq (note : Option String) :
    incidentDesc note =
      if note = none ∨ note = some "" then "Crying incident"
      else "Incident: " ++ note.getD "" := by
  cases note with
  | none => simp [incidentDesc]
  | some s =>
      by_cases hs : s = "" <;> simp [incidentDesc, hs]

/-- C6: logging an incident always inserts exactly one incidents row (note
defaulting to the empty string) and exactly one `-50` incident transaction,
with description "Incident: &lt;note&gt;" when the note is non-empty and
"Crying incident" otherwise, and reports success. -/
theorem incident_route_correct (d : Int) (note : Option String) (st : DB) :
    (logIncident d note st).1 = true ∧
    (logIncident d note st).2.incidents =
      st.incidents ++ [⟨st.incidentNextId, d, note.getD ""⟩] ∧
    (logIncident d note st).2.transactions =
      st.transactions ++ [⟨st.txNextId, d, "incident", -50,
        if note = none ∨ note = some "" then "Crying incident"
        else "Incident: " ++ note.getD ""⟩] ∧
    (logIncident d note st).2.pianoSessions = st.pianoSessions ∧
    (logIncident d note st).2.weeklyAwards = st.weeklyAwards ∧
    (logIncident d note st).2.tests = st.tests := by
  refine ⟨rfl, rfl, ?_, rfl, rfl, rfl⟩
  simp only [logIncident]
  rw [incidentDesc_eq]

/-! ### Claim C7 -/

/-- C7: the balance of a read is the sum of the amounts of the current
transactions (a function of the transaction list alone, hence 0 when there
are none); after a reset the balance is 0 and all five collections are
empty. -/
theorem balance_reset_correct (st st' : DB) :
    (getData st).balance = (st.transactions.map (fun t => t.amount)).sum ∧
    (st.transactions = [] → (getData st).balance = 0) ∧
    (st.transactions = st'.transactions →
      (getData st).balance = (getData st').balance) ∧
    (getData (resetDB st)).balance = 0 ∧
    (getData (resetDB st)).pianoSessions = [] ∧
    (getData (resetDB st)).weeklyAwards = [] ∧
    (getData (resetDB st)).tests = [] ∧
    (getData (resetDB st)).incidents = [] ∧
    (getData (resetDB st)).transactions = [] := by
  refine ⟨rfl, ?_, ?_, rfl, rfl, rfl, rfl, rfl, rfl⟩
  · intro h
    simp [getData, h]
  · intro h
    simp [getData, h]

/-- Witness for C7 at a concrete state with one `-50` transaction. -/
theorem balance_reset_correct_witness :
    (getData (run [Op.incident 3 none])).balance = -50 ∧
    (getData (resetDB (run [Op.incident 3 none]))).balance = 0 := by
  have h := balance_reset_correct (run [Op.incident 3 none]) (run [Op.incident 3 none])
  refine ⟨?_, h.2.2.2.1⟩
  rw [h.1]
  decide

/-- Witness for C1: a 150-minute Monday session on the empty database is
awarded with `weekMinutes = 150`. -/
theorem piano_route_correct_witness :
    (logPiano 4 150 DB.empty).1.awarded = true ∧
    (logPiano 4 150 DB.empty).1.weekMinutes = 150 ∧
    (logPiano 4 150 DB.empty).2.weeklyAwards = [⟨0, 4⟩] := by
  have h := piano_route_correct 4 150 DB.empty
  exact ⟨(h.2.2.2.1).mpr ⟨by decide, by decide⟩, by decide, by decide⟩

/-! ### Claim C3 -/

/-- C3: for a test with positive `maxScore`, the percentage is
`score / maxScore * 100`, the award threshold is 95, the tests row is
always inserted storing the awarded flag, the `+100` transaction with the
rounded-percentage description is inserted exactly when awarded, and the
caller receives the awarded flag and the unrounded percentage. -/
theorem test_route_correct (d : Int) (subj : String) (score maxScore : Int)
    (st : DB) (h : 0 < maxScore) :
    ((logTest d subj score maxScore st).1.percentage =
      JNum.num ((score : ℚ) / (maxScore : ℚ) * 100)) ∧
    ((logTest d subj score maxScore st).1.awarded =
      decide (95 ≤ (score : ℚ) / (maxScore : ℚ) * 100)) ∧
    ((logTest d subj score maxScore st).2.tests = st.tests ++
      [⟨st.testNextId, d, subj, score, maxScore,
        (logTest d subj score maxScore st).1.awarded⟩]) ∧
    ((logTest d subj score maxScore st).1.awarded = true →
      (logTest d subj score maxScore st).2.transactions = st.transactions ++
        [⟨st.txNextId, d, "test", 100,
          subj ++ " test: " ++ toString score ++ "/" ++ toString maxScore ++
            " (" ++ toString ⌊(score : ℚ) / (maxScore : ℚ) * 100 + 1/2⌋ ++
            "%)"⟩]) ∧
    ((logTest d subj score maxScore st).1.awarded = false →
      (logTest d subj score maxScore st).2.transactions = st.transactions) := by
  have hne : (maxScore : ℚ) ≠ 0 := by
    exact_mod_cast (by omega : maxScore ≠ 0)
  have hdiv : (JNum.div (.num (score : ℚ)) (.num (maxScore : ℚ))).mul100 =
      JNum.num ((score : ℚ) / (maxScore : ℚ) * 100) := by
    simp [JNum.div, JNum.mul100, hne]
  by_cases hq : 95 ≤ (score : ℚ) / (maxScore : ℚ) * 100
  · have hb : (JNum.num ((score : ℚ) / (maxScore : ℚ) * 100)).ge95 = true := by
      simp [JNum.ge95, hq]
    simp only [logTest, hdiv, hb, if_true]
    refine ⟨trivial, (decide_eq_true hq).symm, trivial, ?_, ?_⟩
    · intro _
      simp [testDesc, JNum.toFixed0]
    · intro hfalse
      simp at hfalse
  · have hb : (JNum.num ((score : ℚ) / (maxScore : ℚ) * 100)).ge95 = false := by
      simp [JNum.ge95, hq]
    simp only [logTest, hdiv, hb, Bool.false_eq_true, if_false]
    exact ⟨trivial, (decide_eq_false hq).symm, trivial, fun hfalse => hfalse.elim,
      fun _ => trivial⟩

/-- Witness for C3: a 19/20 test is awarded at exactly 95% with the
description "math test: 19/20 (95%)". -/
theorem test_route_correct_witness :
    (logTest 0 "math" 19 20 DB.empty).1.awarded = true ∧
    (logTest 0 "math" 19 20 DB.empty).1.percentage = JNum.num 95 ∧
    (logTest 0 "math" 19 20 DB.empty).2.transactions =
      [⟨0, 0, "test", 100, "math test: 19/20 (95%)"⟩] := by
  have h := test_route_correct 0 "math" 19 20 DB.empty (by decide)
  have hp : (((19 : ℤ) : ℚ)) / (((20 : ℤ) : ℚ)) * 100 = 95 := by norm_num
  have hfloor : ⌊(((19 : ℤ) : ℚ)) / (((20 : ℤ) : ℚ)) * 100 + 1/2⌋ = (95 : ℤ) := by
    rw [hp]
    norm_num
  have haw : (logTest 0 "math" 19 20 DB.empty).1.awarded = true := by
    rw [h.2.1, decide_eq_true_eq, hp]
  refine ⟨haw, ?_, ?_⟩
  · rw [h.1, hp]
  · have htx := h.2.2.2.1 haw
    rw [htx, hfloor]
    decide

/-! ### Claim C4 -/

/-- C4 counterexample: with `maxScore = 0` the route does not fail — JS
division by zero yields `Infinity`, so `10/0` is awarded, the tests row is
stored, and a `+100` transaction with an "Infinity%" description is
inserted. -/
theorem test_maxscore_zero_counterexample :
    (logTest 0 "math" 10 0 DB.empty).1.awarded = true ∧
    (logTest 0 "math" 10 0 DB.empty).2.tests = [⟨0, 0, "math", 10, 0, true⟩] ∧
    (logTest 0 "math" 10 0 DB.empty).2.transactions =
      [⟨0, 0, "test", 100, "math test: 10/0 (Infinity%)"⟩] := by
  decide

/-- C4 amended: logging a test with `maxScore = 0` follows JS number
semantics instead of failing: the percentage is `Infinity`, `-Infinity` or
`NaN` by the sign of the score, the row is always stored with
`awarded = (0 < score)`, and the `+100` transaction (with an "Infinity%"
description) is inserted exactly when `0 < score`. -/
theorem test_maxscore_zero_behavior (d : Int) (subj : String) (score : Int)
    (st : DB) :
    ((logTest d subj score 0 st).1.percentage =
      (if 0 < score then JNum.inf else if score < 0 then JNum.negInf
        else JNum.nan)) ∧
    ((logTest d subj score 0 st).1.awarded = decide (0 < score)) ∧
    ((logTest d subj score 0 st).2.tests = st.tests ++
      [⟨st.testNextId, d, subj, score, 0, decide (0 < score)⟩]) ∧
    (0 < score →
      (logTest d subj score 0 st).2.transactions = st.transactions ++
        [⟨st.txNextId, d, "test", 100,
          subj ++ " test: " ++ toString score ++ "/" ++ toString (0 : Int) ++
            " (" ++ "Infinity" ++ "%)"⟩]) ∧
    (score ≤ 0 → (logTest d subj score 0 st).2.transactions = st.transactions) := by
  have hdiv : JNum.div (.num (score : ℚ)) (.num ((0 : ℤ) : ℚ)) =
      (if 0 < score then JNum.inf else if score < 0 then JNum.negInf
        else JNum.nan) := by
    simp [JNum.div, Int.cast_pos]
  by_cases h1 : 0 < score
  · simp only [logTest, hdiv, if_pos h1, JNum.mul100, JNum.ge95, if_true]
    refine ⟨by simp [h1], by simp [h1], by simp [h1], ?_, ?_⟩
    · intro _
      simp [testDesc, JNum.toFixed0]
    · intro hle
      omega
  · by_cases h2 : score < 0
    · simp only [logTest, hdiv, if_neg h1, if_pos h2, JNum.mul100, JNum.ge95,
        Bool.false_eq_true, if_false]
      exact ⟨by simp [h1, h2], by simp [h1], by simp [h1], fun hc => absurd hc h1,
        fun _ => trivial⟩
    · simp only [logTest, hdiv, if_neg h1, if_neg h2, JNum.mul100, JNum.ge95,
        Bool.false_eq_true, if_false]
      exact ⟨by simp [h1, h2], by simp [h1], by simp [h1], fun hc => absurd hc h1,
        fun _ => trivial⟩

/-- Witness for C4's amended theorem at the failing input `10/0`. -/
theorem test_maxscore_zero_behavior_witness :
    (logTest 0 "math" 10 0 DB.empty).1.awarded = true ∧
    (logTest 0 "math" 10 0 DB.empty).1.percentage = JNum.inf := by
  have h := test_maxscore_zero_behavior 0 "math" 10 DB.empty
  constructor
  · rw [h.2.1]
    decide
  · rw [h.1]
    decide

/-! ### Claim C5 -/

theorem find?_id_of_nodup (l : List Transaction) (t : Transaction) (ht : t ∈ l)
    (hn : (l.map Transaction.id).Nodup) :
    l.find? (fun x => x.id == t.id) = some t := by
  induction l with
  | nil => cases ht
  | cons a l ih =>
      rw [List.map_cons, List.nodup_cons] at hn
      rcases List.mem_cons.mp ht with rfl | hmem
      · exact List.find?_cons_of_pos _ (by simp)
      · have hne : a.id ≠ t.id := by
          intro he
          exact hn.1 (he ▸ List.mem_map_of_mem Transaction.id hmem)
        rw [List.find?_cons_of_neg _ (by simp [hne])]
        exact ih hmem hn.2

theorem filter_ne_id_length (l : List Transaction) (t : Transaction) (ht : t ∈ l)
    (hn : (l.map Transaction.id).Nodup) :
    (l.filter (fun x => !(x.id == t.id))).length + 1 = l.length := by
  induction l with
  | nil => cases ht
  | cons a l ih =>
      rw [List.map_cons, List.nodup_cons] at hn
      rcases List.mem_cons.mp ht with rfl | hmem
      · have hall : ∀ x ∈ l, (!(x.id == t.id)) = true := by
          intro x hx
          have hxt : x.id ≠ t.id := by
            intro he
            exact hn.1 (he ▸ List.mem_map_of_mem Transaction.id hx)
          simp [hxt]
        rw [List.filter_cons, if_neg (by simp), List.filter_eq_self.mpr hall,
          List.length_cons]
      · have hne : a.id ≠ t.id := by
          intro he
          exact hn.1 (he ▸ List.mem_map_of_mem Transaction.id hmem)
        rw [List.filter_cons, if_pos (by simp [hne])]
        rw [List.length_cons, List.length_cons]
        exact congrArg Nat.succ (ih hmem hn.2)

theorem mem_filter_ne_id (l : List Transaction) (t x : Transaction)
    (hn : (l.map Transaction.id).Nodup) (ht : t ∈ l) (hx : x ∈ l) (hxt : x ≠ t) :
    x ∈ l.filter (fun y => !(y.id == t.id)) := by
  rw [List.mem_filter]
  refine ⟨hx, ?_⟩
  simp only [Bool.not_eq_eq_eq_not, Bool.not_true, beq_eq_false_iff_ne, ne_eq]
  intro he
  exact hxt (List.inj_on_of_nodup_map hn hx ht he)

/-- C5: deleting a transaction by id fails (with no state change) exactly
when no such transaction exists; when found, the transaction row is
removed, the other collections are untouched except that for a positive
piano transaction the award of the week of the transaction's date (the
Monday on or before it) is deleted as well. -/
theorem delete_route_correct (id : Nat) (st : DB) :
    ((∀ t ∈ st.transactions, t.id ≠ id) → deleteTransaction id st = none) ∧
    (∀ t, st.transactions.find? (fun x => x.id == id) = some t →
      (deleteTransaction id st).isSome = true) ∧
    (∀ t st2, st.transactions.find? (fun x => x.id == id) = some t →
      deleteTransaction id st = some st2 →
      (st2.transactions = st.transactions.filter (fun x => !(x.id == id)) ∧
       t ∉ st2.transactions ∧
       st2.pianoSessions = st.pianoSessions ∧
       st2.tests = st.tests ∧
       st2.incidents = st.incidents ∧
       (t.txType = "piano" ∧ 0 < t.amount →
         st2.weeklyAwards =
           st.weeklyAwards.filter (fun a => !(a.weekStart == getWeekStart t.date)) ∧
         ¬ hasAward st2 (getWeekStart t.date) ∧
         isMonday (getWeekStart t.date) ∧
         getWeekStart t.date ≤ t.date ∧
         (∀ w, isMonday w → w ≤ t.date → w ≤ getWeekStart t.date)) ∧
       (¬(t.txType = "piano" ∧ 0 < t.amount) →
         st2.weeklyAwards = st.weeklyAwards))) := by
  refine ⟨?_, ?_, ?_⟩
  · intro h
    have hnone : st.transactions.find? (fun x => x.id == id) = none := by
      rw [List.find?_eq_none]
      intro x hx
      simp [h x hx]
    simp [deleteTransaction, hnone]
  · intro t hfind
    simp [deleteTransaction, hfind]
  · intro t st2 hfind hdel
    have hid : (t.id == id) = true := by simpa using List.find?_some hfind
    simp only [deleteTransaction, hfind, Option.some.injEq] at hdel
    subst hdel
    refine ⟨rfl, ?_, rfl, rfl, rfl, ?_, ?_⟩
    · intro hmem
      have := (List.mem_filter.mp hmem).2
      simp [hid] at this
    · intro hc
      simp only [if_pos hc]
      refine ⟨trivial, ?_, isMonday_getWeekStart t.date, getWeekStart_le t.date,
        fun w hw hle => getWeekStart_greatest t.date w hw hle⟩
      rintro ⟨a, ha, hws⟩
      simp only [if_pos hc] at ha
      have := (List.mem_filter.mp ha).2
      simp [hws] at this
    · intro hc
      simp only [if_neg hc]

/-- Witness for C5: deleting the piano award transaction of the week of
day 4 removes the transaction and the week's award. -/
theorem delete_route_correct_witness :
    (deleteTransaction 0 (run [Op.piano 4 150])).map DB.weeklyAwards = some [] ∧
    (deleteTransaction 0 (run [Op.piano 4 150])).map DB.transactions = some [] := by
  have h := delete_route_correct 0 (run [Op.piano 4 150])
  have hfind : (run [Op.piano 4 150]).transactions.find? (fun x => x.id == 0) =
      some ⟨0, 4, "piano", 50, pianoDesc 150⟩ := by decide
  have hsome := h.2.1 _ hfind
  obtain ⟨st2, hst2⟩ := Option.isSome_iff_exists.mp hsome
  obtain ⟨htx, _, _, _, _, hpi, _⟩ := h.2.2 _ st2 hfind hst2
  obtain ⟨haw, _⟩ := hpi ⟨rfl, by decide⟩
  rw [hst2]
  constructor
  · show some st2.weeklyAwards = some []
    rw [haw]
    decide
  · show some st2.transactions = some []
    rw [htx]
    decide

/-! ### Claim C9 -/

/-- C9: deleting an existing transaction that is not a positive piano
transaction (given the distinct ids the serial column guarantees) removes
exactly that row: the four other collections are untouched and every other
transaction row survives. -/
theorem delete_nonpiano_frame (t : Transaction) (st : DB)
    (hmem : t ∈ st.transactions)
    (hnodup : (st.transactions.map Transaction.id).Nodup)
    (hnp : ¬(t.txType = "piano" ∧ 0 < t.amount)) :
    deleteTransaction t.id st =
      some { st with
        transactions := st.transactions.filter (fun x => !(x.id == t.id)) } ∧
    (st.transactions.filter (fun x => !(x.id == t.id))).length + 1 =
      st.transactions.length ∧
    ∀ x ∈ st.transactions, x ≠ t →
      x ∈ st.transactions.filter (fun y => !(y.id == t.id)) := by
  have hfind := find?_id_of_nodup st.transactions t hmem hnodup
  refine ⟨?_, filter_ne_id_length st.transactions t hmem hnodup, ?_⟩
  · simp only [deleteTransaction, hfind, if_neg hnp]
  · intro x hx hxt
    exact mem_filter_ne_id st.transactions t x hnodup hmem hx hxt

/-- Witness for C9: deleting the `-50` incident transaction of a concrete
state removes only that transaction row. -/
theorem delete_nonpiano_frame_witness :
    deleteTransaction 0 (run [Op.incident 3 none]) =
      some { run [Op.incident 3 none] with transactions := [] } := by
  have h := delete_nonpiano_frame ⟨0, 3, "incident", -50, "Crying incident"⟩
    (run [Op.incident 3 none]) (by decide) (by decide) (by decide)
  refine h.1.trans ?_
  decide

/-! ### Sorting lemmas for the read-all route -/

theorem mem_insertBy {α : Type} (le : α → α → Bool) (x : α) (l : List α) (a : α) :
    a ∈ insertBy le x l ↔ a = x ∨ a ∈ l := by
  induction l with
  | nil => simp [insertBy]
  | cons y ys ih =>
      simp only [insertBy]
      split
      · simp [List.mem_cons]
      · rw [List.mem_cons, ih, List.mem_cons]
        tauto

theorem insertBy_perm {α : Type} (le : α → α → Bool) (x : α) (l : List α) :
    (insertBy le x l).Perm (x :: l) := by
  induction l with
  | nil => exact List.Perm.refl _
  | cons y ys ih =>
      simp only [insertBy]
      split
      · exact List.Perm.refl _
      · exact (List.Perm.cons y ih).trans (List.Perm.swap x y ys)

theorem sortBy_perm {α : Type} (le : α → α → Bool) (l : List α) :
    (sortBy le l).Perm l := by
  induction l with
  | nil => exact List.Perm.refl _
  | cons x xs ih =>
      exact (insertBy_perm le x (sortBy le xs)).trans (List.Perm.cons x ih)

theorem pairwise_insertBy {α : Type} {le : α → α → Bool}
    (htot : ∀ a b, le a b = true ∨ le b a = true)
    (htrans : ∀ a b c, le a b = true → le b c = true → le a c = true)
    (x : α) (l : List α) (h : l.Pairwise (fun a b => le a b = true)) :
    (insertBy le x l).Pairwise (fun a b => le a b = true) := by
  induction l with
  | nil => simp [insertBy]
  | cons y ys ih =>
      rcases List.pairwise_cons.mp h with ⟨hy, hys⟩
      simp only [insertBy]
      split
      case isTrue hxy =>
        refine List.pairwise_cons.mpr ⟨?_, h⟩
        intro b hb
        rcases List.mem_cons.mp hb with rfl | hmem
        · exact hxy
        · exact htrans x y b hxy (hy b hmem)
      case isFalse hxy =>
        have hyx : le y x = true := (htot x y).resolve_left hxy
        refine List.pairwise_cons.mpr ⟨?_, ih hys⟩
        intro b hb
        rcases (mem_insertBy le x ys b).mp hb with rfl | hmem
        · exact hyx
        · exact hy b hmem

theorem sortBy_pairwise {α : Type} {le : α → α → Bool}
    (htot : ∀ a b, le a b = true ∨ le b a = true)
    (htrans : ∀ a b c, le a b = true → le b c = true → le a c = true)
    (l : List α) :
    (sortBy le l).Pairwise (fun a b => le a b = true) := by
  induction l with
  | nil => exact List.Pairwise.nil
  | cons x xs ih => exact pairwise_insertBy htot htrans x (sortBy le xs) ih

theorem dateDesc_total {α : Type} (f : α → Int) (a b : α) :
    dateDesc f a b = true ∨ dateDesc f b a = true := by
  simp only [dateDesc, decide_eq_true_eq]
  exact le_total _ _

theorem dateDesc_trans {α : Type} (f : α → Int) (a b c : α)
    (h1 : dateDesc f a b = true) (h2 : dateDesc f b c = true) :
    dateDesc f a c = true := by
  simp only [dateDesc, decide_eq_true_eq] at h1 h2 ⊢
  omega

theorem txDesc_total (a b : Transaction) :
    txDesc a b = true ∨ txDesc b a = true := by
  simp only [txDesc, Bool.or_eq_true, Bool.and_eq_true, decide_eq_true_eq,
    beq_iff_eq]
  omega

theorem txDesc_trans (a b c : Transaction) (h1 : txDesc a b = true)
    (h2 : txDesc b c = true) : txDesc a c = true := by
  simp only [txDesc, Bool.or_eq_true, Bool.and_eq_true, decide_eq_true_eq,
    beq_iff_eq] at h1 h2 ⊢
  omega

/-! ### Claim C8 -/

/-- C8 counterexample: the `weekly_awards` query of the read-all route has
no `ORDER BY`; after earning the awards of the weeks of day 4 and day 11
the returned `weeklyAwards` list is in ascending storage order, not
descending. -/
theorem getData_awards_unordered :
    ¬ (getData (run [Op.piano 4 150, Op.piano 11 150])).weeklyAwards.Pairwise
        (fun a b => b.weekStart ≤ a.weekStart) := by
  decide

/-- C8 amended: the read-all route returns the derived balance and the
full contents of all five collections; `pianoSessions`, `tests` and
`incidents` are ordered by date descending and `transactions` by date
descending then id descending, while `weeklyAwards` is returned in storage
order with no ordering guarantee. -/
theorem getData_contents_and_order (st : DB) :
    (getData st).balance = (st.transactions.map (fun t => t.amount)).sum ∧
    ((getData st).pianoSessions.Perm st.pianoSessions ∧
      (getData st).pianoSessions.Pairwise (fun a b => b.date ≤ a.date)) ∧
    ((getData st).tests.Perm st.tests ∧
      (getData st).tests.Pairwise (fun a b => b.date ≤ a.date)) ∧
    ((getData st).incidents.Perm st.incidents ∧
      (getData st).incidents.Pairwise (fun a b => b.date ≤ a.date)) ∧
    ((getData st).transactions.Perm st.transactions ∧
      (getData st).transactions.Pairwise
        (fun a b => b.date < a.date ∨ (a.date = b.date ∧ b.id ≤ a.id))) ∧
    (getData st).weeklyAwards = st.weeklyAwards := by
  refine ⟨rfl, ⟨sortBy_perm _ _, ?_⟩, ⟨sortBy_perm _ _, ?_⟩,
    ⟨sortBy_perm _ _, ?_⟩, ⟨sortBy_perm _ _, ?_⟩, rfl⟩
  · exact (sortBy_pairwise (dateDesc_total _) (dateDesc_trans _) _).imp
      (fun h => by simpa [dateDesc] using h)
  · exact (sortBy_pairwise (dateDesc_total _) (dateDesc_trans _) _).imp
      (fun h => by simpa [dateDesc] using h)
  · exact (sortBy_pairwise (dateDesc_total _) (dateDesc_trans _) _).imp
      (fun h => by simpa [dateDesc] using h)
  · exact (sortBy_pairwise txDesc_total txDesc_trans _).imp
      (fun h => by simpa [txDesc, Bool.or_eq_true, Bool.and_eq_true,
        decide_eq_true_eq, beq_iff_eq] using h)

/-! ### Counting lemmas for the award invariant -/

theorem posPianoTx_iff (t : Transaction) :
    posPianoTx t = true ↔ (t.txType = "piano" ∧ 0 < t.amount) := by
  simp [posPianoTx]

theorem inWeek_iff_of_monday (ws d : Int) (hw : isMonday ws) :
    inWeek ws d = true ↔ ws = getWeekStart d := by
  simp only [inWeek, Bool.and_eq_true, decide_eq_true_eq]
  exact monday_week_mem d ws hw

theorem inWeek_eq_false_of_ne (ws d : Int) (hw : isMonday ws)
    (hne : ws ≠ getWeekStart d) : inWeek ws d = false := by
  rw [Bool.eq_false_iff]
  intro hc
  exact hne ((inWeek_iff_of_monday ws d hw).mp hc)

theorem inWeek_gws (d : Int) : inWeek (getWeekStart d) d = true := by
  simp [inWeek, getWeekStart_le, le_getWeekStart_add]

theorem countP_snoc (l : List Transaction) (t : Transaction)
    (p : Transaction → Bool) :
    (l ++ [t]).countP p = l.countP p + (if p t then 1 else 0) := by
  rw [List.countP_append]
  simp [List.countP_cons]

theorem countP_filter_ne_id (l : List Transaction) (t : Transaction)
    (ht : t ∈ l) (hn : (l.map Transaction.id).Nodup) (p : Transaction → Bool) :
    (l.filter (fun x => !(x.id == t.id))).countP p =
      l.countP p - (if p t then 1 else 0) := by
  induction l with
  | nil => cases ht
  | cons a l ih =>
      rw [List.map_cons, List.nodup_cons] at hn
      rcases List.mem_cons.mp ht with rfl | hmem
      · have hall : ∀ x ∈ l, (!(x.id == t.id)) = true := by
          intro x hx
          have hxt : x.id ≠ t.id := by
            intro he
            exact hn.1 (he ▸ List.mem_map_of_mem Transaction.id hx)
          simp [hxt]
        rw [List.filter_cons, if_neg (by simp), List.filter_eq_self.mpr hall,
          List.countP_cons]
        cases hpt : p t <;> simp [hpt]
      · have hne : a.id ≠ t.id := by
          intro he
          exact hn.1 (he ▸ List.mem_map_of_mem Transaction.id hmem)
        rw [List.filter_cons, if_pos (by simp [hne]), List.countP_cons,
          List.countP_cons, ih hmem hn.2]
        cases hb : p t with
        | false => simp [hb]
        | true =>
            have h1 : 1 ≤ l.countP p := by
              have := List.countP_pos_iff.mpr ⟨t, hmem, hb⟩
              omega
            cases hpa : p a <;> simp [hb, hpa] <;> omega

theorem countP_key_le_one {α : Type} (f : α → Int) (l : List α)
    (hn : (l.map f).Nodup) (k : Int) :
    l.countP (fun a => f a == k) ≤ 1 := by
  induction l with
  | nil => simp
  | cons a l ih =>
      rw [List.map_cons, List.nodup_cons] at hn
      rw [List.countP_cons]
      by_cases hk : f a = k
      · have hz : l.countP (fun a => f a == k) = 0 := by
          rw [List.countP_eq_zero]
          intro x hx
          simp only [beq_iff_eq]
          intro he
          have : f a ∈ l.map f := by
            rw [hk, ← he]
            exact List.mem_map_of_mem f hx
          exact hn.1 this
        simp [hz, hk]
      · simp only [beq_iff_eq, hk]
        simpa using ih hn.2

/-! ### Preservation of the award invariant -/

theorem nodup_ids_snoc (l : List Transaction) (t : Transaction)
    (hlt : ∀ x ∈ l, x.id < t.id) (hn : (l.map Transaction.id).Nodup) :
    ((l ++ [t]).map Transaction.id).Nodup := by
  rw [List.map_append]
  refine List.Nodup.append hn (List.nodup_singleton _) ?_
  intro a ha hb
  rcases List.mem_map.mp ha with ⟨x, hx, rfl⟩
  rw [List.map_singleton, List.mem_singleton] at hb
  exact absurd hb (Nat.ne_of_lt (hlt x hx))

theorem countP_piano_snoc_nonpiano (l : List Transaction) (t : Transaction)
    (hnp : posPianoTx t = false) (ws : Int) :
    (l ++ [t]).countP (fun x => posPianoTx x && inWeek ws x.date) =
      l.countP (fun x => posPianoTx x && inWeek ws x.date) := by
  rw [countP_snoc]
  simp [hnp]

theorem dbInv_empty : DBInv DB.empty := by
  refine ⟨?_, ?_, ?_, ?_, ?_, ?_⟩ <;>
    simp [DB.empty, hasAward, pianoCount]

theorem dbInv_reset (st : DB) : DBInv (resetDB st) := by
  refine ⟨?_, ?_, ?_, ?_, ?_, ?_⟩ <;>
    simp [resetDB, hasAward, pianoCount]

theorem posPianoTx_other (t : Transaction) (hty : t.txType ≠ "piano") :
    posPianoTx t = false := by
  simp [posPianoTx, hty]

theorem dbInv_test (d : Int) (subj : String) (s ms : Int) (st : DB)
    (h : DBInv st) : DBInv (logTest d subj s ms st).2 := by
  simp only [logTest]
  split
  case isTrue _ =>
    refine ⟨?_, ?_, h.awMonday, h.awNodup, ?_, ?_⟩
    · intro t ht
      rcases List.mem_append.mp ht with ht | ht
      · exact Nat.lt_succ_of_lt (h.txIdLt t ht)
      · rw [List.mem_singleton] at ht
        subst ht
        exact Nat.lt_succ_self _
    · exact nodup_ids_snoc _ _ (fun x hx => h.txIdLt x hx) h.txIdNodup
    · intro ws hw
      simp only [pianoCount, hasAward]
      rw [countP_snoc, posPianoTx_other _ (by simp)]
      simp only [Bool.false_and, Bool.false_eq_true, if_false, Nat.add_zero]
      exact h.awardIffOne ws hw
    · intro ws hw
      simp only [pianoCount]
      rw [countP_snoc, posPianoTx_other _ (by simp)]
      simp only [Bool.false_and, Bool.false_eq_true, if_false, Nat.add_zero]
      exact h.countLe ws hw
  case isFalse _ =>
    exact ⟨h.txIdLt, h.txIdNodup, h.awMonday, h.awNodup, h.awardIffOne, h.countLe⟩

theorem dbInv_incident (d : Int) (note : Option String) (st : DB)
    (h : DBInv st) : DBInv (logIncident d note st).2 := by
  simp only [logIncident]
  refine ⟨?_, ?_, h.awMonday, h.awNodup, ?_, ?_⟩
  · intro t ht
    rcases List.mem_append.mp ht with ht | ht
    · exact Nat.lt_succ_of_lt (h.txIdLt t ht)
    · rw [List.mem_singleton] at ht
      subst ht
      exact Nat.lt_succ_self _
  · exact nodup_ids_snoc _ _ (fun x hx => h.txIdLt x hx) h.txIdNodup
  · intro ws hw
    simp only [pianoCount, hasAward]
    rw [countP_snoc, posPianoTx_other _ (by simp)]
    simp only [Bool.false_and, Bool.false_eq_true, if_false, Nat.add_zero]
    exact h.awardIffOne ws hw
  · intro ws hw
    simp only [pianoCount]
    rw [countP_snoc, posPianoTx_other _ (by simp)]
    simp only [Bool.false_and, Bool.false_eq_true, if_false, Nat.add_zero]
    exact h.countLe ws hw

theorem posPianoTx_piano (i : Nat) (dd : Int) (amt : Int) (desc : String)
    (hamt : 0 < amt) : posPianoTx ⟨i, dd, "piano", amt, desc⟩ = true := by
  simp [posPianoTx, hamt]

theorem dbInv_piano (d m : Int) (st : DB) (h : DBInv st) :
    DBInv (logPiano d m st).2 := by
  simp only [logPiano]
  split
  case isFalse _ =>
    exact ⟨h.txIdLt, h.txIdNodup, h.awMonday, h.awNodup, h.awardIffOne, h.countLe⟩
  case isTrue hc =>
    have hnoaw : ∀ a ∈ st.weeklyAwards, a.weekStart ≠ getWeekStart d := by
      intro a ha
      have h2 := hc.2
      rw [List.any_eq_false] at h2
      simpa using h2 a ha
    have hnoha : ¬ hasAward st (getWeekStart d) := by
      rintro ⟨a, ha, hws⟩
      exact hnoaw a ha hws
    have hc0 : pianoCount st (getWeekStart d) = 0 := by
      have hiff := h.awardIffOne (getWeekStart d) (isMonday_getWeekStart d)
      have hle := h.countLe (getWeekStart d) (isMonday_getWeekStart d)
      have hne : pianoCount st (getWeekStart d) ≠ 1 := fun he => hnoha (hiff.mpr he)
      omega
    refine ⟨?_, ?_, ?_, ?_, ?_, ?_⟩
    · intro t ht
      rcases List.mem_append.mp ht with ht | ht
      · exact Nat.lt_succ_of_lt (h.txIdLt t ht)
      · rw [List.mem_singleton] at ht
        subst ht
        exact Nat.lt_succ_self _
    · exact nodup_ids_snoc _ _ (fun x hx => h.txIdLt x hx) h.txIdNodup
    · intro a ha
      rcases List.mem_append.mp ha with ha | ha
      · exact h.awMonday a ha
      · rw [List.mem_singleton] at ha
        subst ha
        exact isMonday_getWeekStart d
    · rw [List.map_append]
      refine List.Nodup.append h.awNodup (List.nodup_singleton _) ?_
      intro w hwmem hwmem2
      rcases List.mem_map.mp hwmem with ⟨a, ha, rfl⟩
      rw [List.map_singleton, List.mem_singleton] at hwmem2
      exact hnoaw a ha hwmem2
    · intro ws hw
      simp only [pianoCount, hasAward]
      rw [countP_snoc]
      dsimp only
      rw [posPianoTx_piano _ _ _ _ (by norm_num), Bool.true_and]
      by_cases hws : ws = getWeekStart d
      · subst hws
        rw [inWeek_gws, if_pos rfl]
        refine iff_of_true ⟨⟨st.awardNextId, getWeekStart d⟩,
          List.mem_append.mpr (Or.inr (List.mem_singleton.mpr rfl)), rfl⟩ ?_
        change pianoCount st (getWeekStart d) + 1 = 1
        omega
      · rw [inWeek_eq_false_of_ne ws d hw hws, if_neg Bool.false_ne_true,
          Nat.add_zero]
        have hiff := h.awardIffOne ws hw
        constructor
        · rintro ⟨a, ha, hws'⟩
          rcases List.mem_append.mp ha with ha | ha
          · exact hiff.mp ⟨a, ha, hws'⟩
          · rw [List.mem_singleton] at ha
            subst ha
            exact absurd hws'.symm hws
        · intro hcount
          rcases hiff.mpr hcount with ⟨a, ha, hws'⟩
          exact ⟨a, List.mem_append.mpr (Or.inl ha), hws'⟩
    · intro ws hw
      simp only [pianoCount]
      rw [countP_snoc]
      dsimp only
      rw [posPianoTx_piano _ _ _ _ (by norm_num), Bool.true_and]
      by_cases hws : ws = getWeekStart d
      · subst hws
        rw [inWeek_gws, if_pos rfl]
        change pianoCount st (getWeekStart d) + 1 ≤ 1
        omega
      · rw [inWeek_eq_false_of_ne ws d hw hws, if_neg Bool.false_ne_true,
          Nat.add_zero]
        exact h.countLe ws hw

theorem dbInv_delete (i : Nat) (st : DB) (h : DBInv st) :
    DBInv ((deleteTransaction i st).getD st) := by
  cases hf : st.transactions.find? (fun x => x.id == i) with
  | none =>
      simp only [deleteTransaction, hf, Option.getD_none]
      exact h
  | some t =>
      have hmem : t ∈ st.transactions := List.mem_of_find?_eq_some hf
      have hid : t.id = i := by simpa using List.find?_some hf
      subst hid
      simp only [deleteTransaction, hf, Option.getD_some]
      by_cases hpp : t.txType = "piano" ∧ 0 < t.amount
      · simp only [if_pos hpp]
        have hppb : posPianoTx t = true := (posPianoTx_iff t).mpr hpp
        have hptrue : (fun x => posPianoTx x && inWeek (getWeekStart t.date) x.date) t
            = true := by
          show (posPianoTx t && inWeek (getWeekStart t.date) t.date) = true
          rw [hppb, Bool.true_and]
          exact inWeek_gws t.date
        have h1 : pianoCount st (getWeekStart t.date) = 1 := by
          have hge : 0 < pianoCount st (getWeekStart t.date) :=
            List.countP_pos_iff.mpr ⟨t, hmem, hptrue⟩
          have hle := h.countLe (getWeekStart t.date) (isMonday_getWeekStart t.date)
          omega
        refine ⟨?_, ?_, ?_, ?_, ?_, ?_⟩
        · intro x hx
          exact h.txIdLt x (List.mem_filter.mp hx).1
        · exact List.Nodup.sublist
            (List.Sublist.map _ (List.filter_sublist _)) h.txIdNodup
        · intro a ha
          exact h.awMonday a (List.mem_filter.mp ha).1
        · exact List.Nodup.sublist
            (List.Sublist.map _ (List.filter_sublist _)) h.awNodup
        · intro ws hw
          simp only [pianoCount, hasAward]
          rw [countP_filter_ne_id st.transactions t hmem h.txIdNodup]
          rw [hppb, Bool.true_and]
          by_cases hws : ws = getWeekStart t.date
          · subst hws
            rw [inWeek_gws, if_pos rfl]
            refine iff_of_false ?_ ?_
            · rintro ⟨a, ha, hws'⟩
              have := (List.mem_filter.mp ha).2
              simp [hws'] at this
            · intro hcontra
              change pianoCount st (getWeekStart t.date) - 1 = 1 at hcontra
              rw [h1] at hcontra
              exact absurd hcontra (by norm_num)
          · rw [inWeek_eq_false_of_ne ws t.date hw hws, if_neg Bool.false_ne_true,
              Nat.sub_zero]
            have hiff := h.awardIffOne ws hw
            constructor
            · rintro ⟨a, ha, hws'⟩
              exact hiff.mp ⟨a, (List.mem_filter.mp ha).1, hws'⟩
            · intro hcount
              rcases hiff.mpr hcount with ⟨a, ha, hws'⟩
              refine ⟨a, List.mem_filter.mpr ⟨ha, ?_⟩, hws'⟩
              simp only [Bool.not_eq_eq_eq_not, Bool.not_true, beq_eq_false_iff_ne,
                ne_eq]
              rw [hws']
              exact hws
        · intro ws hw
          simp only [pianoCount]
          rw [countP_filter_ne_id st.transactions t hmem h.txIdNodup]
          exact le_trans (Nat.sub_le _ _) (h.countLe ws hw)
      · simp only [if_neg hpp]
        have hppb : posPianoTx t = false := by
          rw [Bool.eq_false_iff]
          intro hc
          exact hpp ((posPianoTx_iff t).mp hc)
        refine ⟨?_, ?_, h.awMonday, h.awNodup, ?_, ?_⟩
        · intro x hx
          exact h.txIdLt x (List.mem_filter.mp hx).1
        · exact List.Nodup.sublist
            (List.Sublist.map _ (List.filter_sublist _)) h.txIdNodup
        · intro ws hw
          simp only [pianoCount, hasAward]
          rw [countP_filter_ne_id st.transactions t hmem h.txIdNodup]
          rw [hppb, Bool.false_and, if_neg Bool.false_ne_true, Nat.sub_zero]
          exact h.awardIffOne ws hw
        · intro ws hw
          simp only [pianoCount]
          rw [countP_filter_ne_id st.transactions t hmem h.txIdNodup]
          exact le_trans (Nat.sub_le _ _) (h.countLe ws hw)

theorem dbInv_exec (op : Op) (st : DB) (h : DBInv st) : DBInv (execOp op st) := by
  cases op with
  | piano d m => exact dbInv_piano d m st h
  | test d subj s ms => exact dbInv_test d subj s ms st h
  | incident d note => exact dbInv_incident d note st h
  | deleteTx i => exact dbInv_delete i st h
  | reset => exact dbInv_reset st

theorem dbInv_run (ops : List Op) : DBInv (run ops) := by
  suffices hgen : ∀ st, DBInv st → DBInv (ops.foldl (fun st op => execOp op st) st) by
    exact hgen DB.empty dbInv_empty
  induction ops with
  | nil => exact fun st h => h
  | cons op ops ih =>
      intro st h
      exact ih (execOp op st) (dbInv_exec op st h)

/-! ### Claim C2 -/

/-- C2: from the empty database, after any sequence of operations, every
`week_start` (a Monday, as the data model defines week starts) keys at
most one award row, and an award for a week exists exactly when exactly
one positive piano transaction dated within that week exists. -/
theorem award_week_invariant (ops : List Op) (ws : Int) :
    (run ops).weeklyAwards.countP (fun a => a.weekStart == ws) ≤ 1 ∧
    (isMonday ws → (hasAward (run ops) ws ↔ pianoCount (run ops) ws = 1)) := by
  have h := dbInv_run ops
  exact ⟨countP_key_le_one WeeklyAward.weekStart _ h.awNodup ws,
    fun hw => h.awardIffOne ws hw⟩

/-- Witness for C2: after one awarded piano session on Monday day 4, the
award for week 4 exists, the week's positive piano transaction count is 1,
and the award count for week 4 is at most one. -/
theorem award_week_invariant_witness :
    hasAward (run [Op.piano 4 150]) 4 ∧
    pianoCount (run [Op.piano 4 150]) 4 = 1 ∧
    (run [Op.piano 4 150]).weeklyAwards.countP
      (fun a => a.weekStart == 4) ≤ 1 := by
  have h := award_week_invariant [Op.piano 4 150] 4
  have hiff := h.2 (by decide)
  exact ⟨hiff.mpr (by decide), by decide, h.1⟩
